import Mathlib

/-!
Verification of the word tokenization and ORP-index computation pipeline of
the speed_reader repository.

Strings are modelled as `List Char`.  JavaScript string operations (regex
replace, `trim`, `match`) are embedded as explicit recursive functions over
`List Char`; each definition is annotated with the source line it embeds.

The anchored regex
  `^([^A-Za-z0-9]*)([A-Za-z0-9]+(?:['-][A-Za-z0-9]+)*)([^A-Za-z0-9]*)$`
matches a token iff the token decomposes as
  (maximal non-alphanumeric prefix) ++ mid ++ (maximal non-alphanumeric suffix)
with `mid` in the language alnum+((apostrophe|hyphen) alnum+)*: group 2 must
start and end with an alphanumeric character, so group 1 is forced to be the
maximal non-alphanumeric prefix and group 3 the maximal non-alphanumeric
suffix, and the match succeeds exactly when the remaining middle is in the
core language.  `splitLeadingCoreTrailing` below embeds the regex through
this (unique) canonical decomposition, with the core language recognised by
the two-state automaton `coreRun`.
-/

/-- Character class `[A-Za-z0-9]` of `WORD_CORE_RE` (ASCII alphanumerics). -/
def isAlnumChar (c : Char) : Bool :=
  ('A' ≤ c && c ≤ 'Z') || ('a' ≤ c && c ≤ 'z') || ('0' ≤ c && c ≤ '9')

/-- Character class `['-]` of `WORD_CORE_RE`: apostrophe (code 39) or hyphen. -/
def isSepChar (c : Char) : Bool :=
  c = Char.ofNat 39 || c = '-'

/-- The JavaScript whitespace class `\s` (also the set removed by
`String.prototype.trim`): tab, LF, VT, FF, CR, space, NBSP, and the
Unicode space separators, line/paragraph separators and BOM. -/
def isJsWhitespace (c : Char) : Bool :=
  c = ' ' || c = '\t' || c = '\n' || c = '\x0b' || c = '\x0c' || c = '\r' ||
  c = ' ' || c = ' ' || (' ' ≤ c && c ≤ ' ') ||
  c = ' ' || c = ' ' || c = ' ' || c = ' ' || c = '　' ||
  c = '﻿'

/-- Horizontal whitespace, the class `[ \t]` of `normalizePreserveParagraphs`. -/
def isHorizWs (c : Char) : Bool :=
  c = ' ' || c = '\t'

/-- Two-state automaton recognising the core language
`[A-Za-z0-9]+(?:['-][A-Za-z0-9]+)*`.  The state `needAl` is `true` at the
start and right after a separator, where an alphanumeric character is
required; it is `false` after an alphanumeric character, an accepting
position where either another alphanumeric character or a separator may
follow. -/
def coreRun (needAl : Bool) : List Char → Bool
  | [] => !needAl
  | c :: rest =>
    if isAlnumChar c then coreRun false rest
    else if !needAl && isSepChar c then coreRun true rest
    else false

/-- Membership in the core language of `WORD_CORE_RE`'s group 2. -/
def coreOk (s : List Char) : Bool := coreRun true s

/-- The middle of a token after stripping its maximal non-alphanumeric
prefix and suffix (the only candidate for `WORD_CORE_RE`'s group 2). -/
def tokenMiddle (token : List Char) : List Char :=
  (((token.dropWhile fun c => !isAlnumChar c).reverse.dropWhile
      fun c => !isAlnumChar c).reverse)

/-- The maximal non-alphanumeric suffix of the token's remainder after its
maximal non-alphanumeric prefix (the candidate for group 3). -/
def tokenTrailing (token : List Char) : List Char :=
  (((token.dropWhile fun c => !isAlnumChar c).reverse.takeWhile
      fun c => !isAlnumChar c).reverse)

/-- Embeds `splitLeadingCoreTrailing` (source lines 39-45): run
`WORD_CORE_RE` against the token; on a match return the three capture
groups, otherwise return the whole token as core with empty leading and
trailing. -/
def splitLeadingCoreTrailing (token : List Char) :
    List Char × List Char × List Char :=
  if coreOk (tokenMiddle token) then
    (token.takeWhile (fun c => !isAlnumChar c), tokenMiddle token,
      tokenTrailing token)
  else
    ([], token, [])

/-- JavaScript `String.prototype.trim`: drop leading and trailing
whitespace. -/
def jsTrim (s : List Char) : List Char :=
  ((s.dropWhile isJsWhitespace).reverse.dropWhile isJsWhitespace).reverse

/-- Embeds `calculateOrpCore` (source lines 27-37). -/
def calculateOrpCore (core : List Char) : Nat :=
  let trimmed := jsTrim core
  if trimmed.isEmpty then 0
  else
    let length := trimmed.length
    if length ≤ 1 then 0
    else if length ≤ 5 then 1
    else if length ≤ 9 then 2
    else if length ≤ 13 then 3
    else 4

/-- Replace `/\r\n/g` by `'\n'` (first replace of
`normalizePreserveParagraphs`, source line 48); the recursion scans left to
right without overlap, exactly as a global regex replace does. -/
def replaceCRLF : List Char → List Char
  | [] => []
  | '\r' :: '\n' :: rest => '\n' :: replaceCRLF rest
  | c :: rest => c :: replaceCRLF rest

/-- Replace `/\r/g` by `'\n'` (second replace of source line 48). -/
def replaceCR (s : List Char) : List Char :=
  s.map fun c => if c = '\r' then '\n' else c

/-- Replace every maximal run of characters satisfying `p` by the single
character `r`: embeds a global replace of `/[class]+/g` by a one-character
string.  The flag `inRun` records whether the previous character was in the
class (in which case the replacement was already emitted). -/
def collapseRunsAux (p : Char → Bool) (r : Char) : Bool → List Char → List Char
  | _, [] => []
  | inRun, c :: rest =>
    if p c then
      if inRun then collapseRunsAux p r true rest
      else r :: collapseRunsAux p r true rest
    else c :: collapseRunsAux p r false rest

/-- `/[ \t]+/g` → `' '` (source line 49). -/
def collapseHoriz (s : List Char) : List Char :=
  collapseRunsAux isHorizWs ' ' false s

/-- `/\s+/g` → `' '` (the replace of `normalizeForWords`, source line 54). -/
def collapseAllWs (s : List Char) : List Char :=
  collapseRunsAux isJsWhitespace ' ' false s

/-- Replacement emitted for a maximal run of `run` newlines by the global
replace `/\n{3,}/g` → `"\n\n"` (source line 50): runs of three or more
newlines become exactly two, shorter runs are kept. -/
def nlFor (run : Nat) : List Char :=
  if 3 ≤ run then ['\n', '\n'] else List.replicate run '\n'

/-- Scanner for `/\n{3,}/g` → `"\n\n"`: `run` counts the newlines of the
pending run, emitted via `nlFor` when the run ends. -/
def collapseNlAux (run : Nat) : List Char → List Char
  | [] => nlFor run
  | c :: rest =>
    if c = '\n' then collapseNlAux (run + 1) rest
    else nlFor run ++ c :: collapseNlAux 0 rest

/-- `/\n{3,}/g` → `"\n\n"` (source line 50). -/
def collapseNewlines (s : List Char) : List Char :=
  collapseNlAux 0 s

/-- Embeds `normalizePreserveParagraphs` (source lines 47-52), the spec's
`normalizeForFullText`. -/
def normalizePreserveParagraphs (text : List Char) : List Char :=
  jsTrim (collapseNewlines (collapseHoriz (replaceCR (replaceCRLF text))))

/-- Embeds `normalizeForWords` (source line 54). -/
def normalizeForWords (text : List Char) : List Char :=
  jsTrim (collapseAllWs text)

/-- Scanner for `text.match(/\S+/g) ?? []` (source line 56): `cur` holds the
characters of the current token in reverse. -/
def tokensAux (cur : List Char) : List Char → List (List Char)
  | [] => if cur.isEmpty then [] else [cur.reverse]
  | c :: rest =>
    if isJsWhitespace c then
      if cur.isEmpty then tokensAux [] rest
      else cur.reverse :: tokensAux [] rest
    else tokensAux (c :: cur) rest

/-- Embeds `tokensFromText` (source line 56): all maximal non-whitespace
substrings in order, the empty list when there is no match. -/
def tokensFromText (text : List Char) : List (List Char) :=
  tokensAux [] text

/-- Output entity of the pipeline (`WordData` of `types.ts`): display text
and highlight offset.  `orpIndex` is an `Int` because the source computes it
with JavaScript numbers via `Math.max 0 (Math.min x (len - 1))`. -/
structure WordData where
  word : List Char
  orpIndex : Int
  deriving Repr, DecidableEq

/-- The body of the `tokens.map` lambda of `processTokens` (source lines
59-69). -/
def assembleToken (raw : List Char) : WordData :=
  let parts := splitLeadingCoreTrailing raw
  let leading := parts.1
  let core := parts.2.1
  let trailing := parts.2.2
  let orpCore := calculateOrpCore core
  let display := leading ++ core ++ trailing
  let orpDisplay : Int :=
    if display.isEmpty then 0
    else max 0 (min ((leading.length : Int) + orpCore) ((display.length : Int) - 1))
  { word := display, orpIndex := orpDisplay }

/-- Embeds `processTokens` (source lines 58-70). -/
def processTokens (tokens : List (List Char)) : List WordData :=
  tokens.map assembleToken

/-- The spec's top-level pipeline `buildWordUnits`
(`processTokens(tokensFromText(normalizeForWords(text)))`, source lines
74-75). -/
def buildWordUnits (text : List Char) : List WordData :=
  processTokens (tokensFromText (normalizeForWords text))

example : buildWordUnits "hi".toList = [⟨['h', 'i'], 1⟩] := by decide
example : buildWordUnits "(hello)".toList = [⟨"(hello)".toList, 2⟩] := by decide
example : splitLeadingCoreTrailing "(hello)".toList =
    (['('], "hello".toList, [')']) := by decide
example : splitLeadingCoreTrailing "---".toList = ([], "---".toList, []) := by
  decide
example : splitLeadingCoreTrailing "(a.b)".toList = ([], "(a.b)".toList, []) := by
  decide

/-! ### Lemmas about the decomposer -/

/-- The stripped middle and the trailing part reassemble to the remainder
after the leading part. -/
theorem tokenMiddle_append_tokenTrailing (token : List Char) :
    tokenMiddle token ++ tokenTrailing token =
      token.dropWhile fun c => !isAlnumChar c := by
  unfold tokenMiddle tokenTrailing
  rw [← List.reverse_append, List.takeWhile_append_dropWhile,
    List.reverse_reverse]

/-- Leading, middle and trailing always reassemble to the token. -/
theorem leading_middle_trailing_eq (token : List Char) :
    token.takeWhile (fun c => !isAlnumChar c) ++
      (tokenMiddle token ++ tokenTrailing token) = token := by
  rw [tokenMiddle_append_tokenTrailing, List.takeWhile_append_dropWhile]

/-- spec_C3: Decomposition is lossless and total: for every token,
concatenating the returned leading, core and trailing parts reconstructs
the original token exactly, and the decomposer never fails (it is a total
function). -/
theorem spec_C3 (token : List Char) :
    (splitLeadingCoreTrailing token).1 ++
      ((splitLeadingCoreTrailing token).2.1 ++
        (splitLeadingCoreTrailing token).2.2) = token := by
  unfold splitLeadingCoreTrailing
  split
  · exact leading_middle_trailing_eq token
  · simp

/-- A word of the core language starts with an alphanumeric character. -/
theorem coreOk_head (s : List Char) (h : coreOk s = true) :
    ∃ c rest, s = c :: rest ∧ isAlnumChar c = true := by
  unfold coreOk at h
  cases s with
  | nil => simp [coreRun] at h
  | cons c rest =>
    refine ⟨c, rest, rfl, ?_⟩
    by_contra hc
    simp [coreRun, hc] at h

/-- A word of the core language ends with an alphanumeric character. -/
theorem coreRun_getLast (s : List Char) : ∀ b c, coreRun b s = true →
    s.getLast? = some c → isAlnumChar c = true := by
  induction s with
  | nil => intro b c _ hl; simp at hl
  | cons d rest ih =>
    intro b c h hl
    cases hrest : rest with
    | nil =>
      subst hrest
      simp at hl
      subst hl
      by_contra hc
      simp [coreRun, hc] at h
    | cons e rest2 =>
      have hl2 : rest.getLast? = some c := by
        rw [hrest] at hl ⊢; simpa using hl
      rw [coreRun] at h
      split at h
      · exact ih false c h hl2
      · split at h
        · exact ih true c h hl2
        · exact absurd h (by simp)

/-- On a word of the core language the decomposer returns the whole token
as core, with empty leading and trailing parts. -/
theorem split_of_coreOk (tok : List Char) (h : coreOk tok = true) :
    splitLeadingCoreTrailing tok = ([], tok, []) := by
  obtain ⟨c, rest, hs, hc⟩ := coreOk_head tok h
  have hdrop : (tok.dropWhile fun x => !isAlnumChar x) = tok := by
    subst hs; simp [List.dropWhile_cons, hc]
  have hne : tok ≠ [] := by subst hs; simp
  obtain ⟨d, hd⟩ : ∃ d, tok.getLast? = some d :=
    ⟨tok.getLast hne, List.getLast?_eq_getLast tok hne⟩
  have hdal : isAlnumChar d = true := coreRun_getLast tok true d h hd
  have hrevhead : tok.reverse.head? = some d := by
    rw [← List.getLast?_eq_head?_reverse]; exact hd
  have hrev : ∃ rrest, tok.reverse = d :: rrest := by
    cases hr : tok.reverse with
    | nil => rw [hr] at hrevhead; simp at hrevhead
    | cons x xs =>
      rw [hr] at hrevhead
      simp at hrevhead
      exact ⟨xs, by rw [hrevhead]⟩
  obtain ⟨rrest, hrr⟩ := hrev
  have hmid : tokenMiddle tok = tok := by
    unfold tokenMiddle
    rw [hdrop, hrr, List.dropWhile_cons]
    simp only [hdal]
    simp [← hrr]
  have htrail : tokenTrailing tok = [] := by
    unfold tokenTrailing
    rw [hdrop, hrr, List.takeWhile_cons]
    simp [hdal]
  have hlead : tok.takeWhile (fun x => !isAlnumChar x) = [] := by
    subst hs; simp [List.takeWhile_cons, hc]
  unfold splitLeadingCoreTrailing
  rw [hmid, htrail, hlead, if_pos h]

/-- A token of the shape described in spec §4.3: an alphanumeric run `w0`
extended by groups of (apostrophe-or-hyphen separator, alphanumeric run). -/
def specCoreToken (w0 : List Char) (groups : List (Char × List Char)) :
    List Char :=
  w0 ++ groups.foldr (fun g acc => g.1 :: (g.2 ++ acc)) []

/-- Separator characters are not alphanumeric. -/
theorem sep_not_alnum (c : Char) (h : isSepChar c = true) :
    isAlnumChar c = false := by
  unfold isSepChar at h
  simp at h
  rcases h with h | h <;> subst h <;> decide

/-- Running the automaton over a nonempty alphanumeric run lands in the
accepting state. -/
theorem coreRun_alnum_append : ∀ (w : List Char) (b : Bool) (rest : List Char),
    w ≠ [] → (∀ c ∈ w, isAlnumChar c = true) →
    coreRun b (w ++ rest) = coreRun false rest := by
  intro w
  induction w with
  | nil => intro b rest h _; exact absurd rfl h
  | cons c w2 ih =>
    intro b rest _ hall
    have hc : isAlnumChar c = true := hall c (by simp)
    cases w2 with
    | nil => simp [coreRun, hc]
    | cons d w3 =>
      have h1 : coreRun b ((c :: d :: w3) ++ rest) =
          coreRun false ((d :: w3) ++ rest) := by
        simp [coreRun, hc]
      rw [h1, ih false rest (by simp) fun x hx => hall x (by simp [hx])]

/-- From the accepting state, any sequence of (separator, alphanumeric run)
groups is accepted. -/
theorem coreRun_groups : ∀ groups : List (Char × List Char),
    (∀ g ∈ groups,
      isSepChar g.1 = true ∧ g.2 ≠ [] ∧ ∀ c ∈ g.2, isAlnumChar c = true) →
    coreRun false (groups.foldr (fun g acc => g.1 :: (g.2 ++ acc)) []) = true := by
  intro groups
  induction groups with
  | nil => intro _; decide
  | cons g gs ih =>
    intro hg
    obtain ⟨hsep, hne, hall⟩ := hg g (by simp)
    have hnal : isAlnumChar g.1 = false := sep_not_alnum g.1 hsep
    show coreRun false
      (g.1 :: (g.2 ++ gs.foldr (fun g acc => g.1 :: (g.2 ++ acc)) [])) = true
    rw [coreRun]
    simp only [hnal, hsep, Bool.not_false, Bool.and_true, if_false,
      Bool.false_eq_true, if_true]
    rw [coreRun_alnum_append g.2 true _ hne hall]
    exact ih fun x hx => hg x (by simp [hx])

/-- Every spec-shaped token is a word of the core language. -/
theorem coreOk_specCoreToken (w0 : List Char)
    (groups : List (Char × List Char)) (h1 : w0 ≠ [])
    (h2 : ∀ c ∈ w0, isAlnumChar c = true)
    (h3 : ∀ g ∈ groups,
      isSepChar g.1 = true ∧ g.2 ≠ [] ∧ ∀ c ∈ g.2, isAlnumChar c = true) :
    coreOk (specCoreToken w0 groups) = true := by
  unfold coreOk specCoreToken
  rw [coreRun_alnum_append w0 true _ h1 h2]
  exact coreRun_groups groups h3

/-- spec_C5: Tokens whose internal apostrophes or hyphens join alphanumeric
runs stay single cores: every token of the form alphanumeric-run extended by
groups of (apostrophe-or-hyphen followed by an alphanumeric run) is returned
whole as core with empty leading and trailing; concretely,
`buildWordUnits "don't stop"` yields exactly the two words `"don't"` and
`"stop"`, with no split at the apostrophe. -/
theorem spec_C5 :
    (∀ (w0 : List Char) (groups : List (Char × List Char)),
      w0 ≠ [] → (∀ c ∈ w0, isAlnumChar c = true) →
      (∀ g ∈ groups,
        isSepChar g.1 = true ∧ g.2 ≠ [] ∧ ∀ c ∈ g.2, isAlnumChar c = true) →
      splitLeadingCoreTrailing (specCoreToken w0 groups) =
        ([], specCoreToken w0 groups, [])) ∧
    (buildWordUnits
        ['d', 'o', 'n', Char.ofNat 39, 't', ' ', 's', 't', 'o', 'p']).map
        WordData.word =
      [['d', 'o', 'n', Char.ofNat 39, 't'], ['s', 't', 'o', 'p']] := by
  constructor
  · intro w0 groups h1 h2 h3
    exact split_of_coreOk _ (coreOk_specCoreToken w0 groups h1 h2 h3)
  · decide

/-- Witness for spec_C5 at the token `"don't"`. -/
theorem spec_C5_witness :
    splitLeadingCoreTrailing
        (specCoreToken ['d', 'o', 'n'] [(Char.ofNat 39, ['t'])]) =
      ([], specCoreToken ['d', 'o', 'n'] [(Char.ofNat 39, ['t'])], []) :=
  spec_C5.1 ['d', 'o', 'n'] [(Char.ofNat 39, ['t'])] (by decide) (by decide)
    (by decide)

/-- spec_C4_counterexample: the token `"(a.b)"` contains alphanumeric
characters, yet the decomposer applies the whole-token fallback: its leading
part is `[]`, not the maximal non-alphanumeric run `"("` at the token start,
refuting both directions of the claim at this input. -/
theorem spec_C4_counterexample :
    "(a.b)".toList.any isAlnumChar = true ∧
    splitLeadingCoreTrailing "(a.b)".toList = ([], "(a.b)".toList, []) ∧
    "(a.b)".toList.takeWhile (fun c => !isAlnumChar c) = ['('] := by
  decide

/-- spec_C4 (amended): when the middle of the token (after stripping the
maximal non-alphanumeric prefix and suffix) matches the core pattern, the
decomposer returns an all-non-alphanumeric leading part, an
all-non-alphanumeric trailing part, and a core that starts and ends with an
alphanumeric character (with the lossless reassembly of spec_C3 this makes
leading and trailing the maximal non-alphanumeric runs at the two ends);
the whole-token fallback with empty leading/trailing is applied exactly
when the middle fails the core pattern, which is the case for every token
with no alphanumeric character at all — but also for some tokens that do
contain alphanumeric characters, such as `"(a.b)"`. -/
theorem spec_C4 (token : List Char) :
    (coreOk (tokenMiddle token) = true →
      (∀ c ∈ (splitLeadingCoreTrailing token).1, isAlnumChar c = false) ∧
      (∀ c ∈ (splitLeadingCoreTrailing token).2.2, isAlnumChar c = false) ∧
      (∀ c, ((splitLeadingCoreTrailing token).2.1).head? = some c →
        isAlnumChar c = true) ∧
      (∀ c, ((splitLeadingCoreTrailing token).2.1).getLast? = some c →
        isAlnumChar c = true)) ∧
    (coreOk (tokenMiddle token) = false →
      splitLeadingCoreTrailing token = ([], token, [])) ∧
    ((∀ c ∈ token, isAlnumChar c = false) →
      coreOk (tokenMiddle token) = false) := by
  refine ⟨?_, ?_, ?_⟩
  · intro h
    have hsplit : splitLeadingCoreTrailing token =
        (token.takeWhile (fun c => !isAlnumChar c), tokenMiddle token,
          tokenTrailing token) := by
      unfold splitLeadingCoreTrailing
      rw [if_pos h]
    rw [hsplit]
    refine ⟨?_, ?_, ?_, ?_⟩
    · intro c hc
      have := List.mem_takeWhile_imp hc
      simpa using this
    · intro c hc
      unfold tokenTrailing at hc
      rw [List.mem_reverse] at hc
      have := List.mem_takeWhile_imp hc
      simpa using this
    · intro c hc
      obtain ⟨d, rest, hshape, hd⟩ := coreOk_head (tokenMiddle token) h
      rw [hshape] at hc
      simp at hc
      rwa [hc] at hd
    · intro c hc
      exact coreRun_getLast (tokenMiddle token) true c h hc
  · intro h
    unfold splitLeadingCoreTrailing
    rw [if_neg (by simp [h])]
  · intro h
    have hdrop : token.dropWhile (fun c => !isAlnumChar c) = [] := by
      rw [List.dropWhile_eq_nil_iff]
      intro x hx
      simp [h x hx]
    unfold tokenMiddle
    rw [hdrop]
    decide

/-- Witness for spec_C4 at the tokens `"(hi)"` and `"---"`. -/
theorem spec_C4_witness :
    isAlnumChar '(' = false ∧ isAlnumChar 'h' = true ∧
    coreOk (tokenMiddle "---".toList) = false :=
  ⟨((spec_C4 "(hi)".toList).1 (by decide)).1 '(' (by decide),
   ((spec_C4 "(hi)".toList).1 (by decide)).2.2.1 'h' (by decide),
   (spec_C4 "---".toList).2.2 (by decide)⟩

/-- The band table of spec §4.4, stated from the spec's words: offset 0 for
trimmed length 0 or 1, 1 for 2-5, 2 for 6-9, 3 for 10-13, and 4 from 14 on. -/
def specOrpTable (L : Nat) : Nat :=
  if L ≤ 1 then 0
  else if L ≤ 5 then 1
  else if L ≤ 9 then 2
  else if L ≤ 13 then 3
  else 4

/-- spec_C2: `calculateOrpCore` is a pure function of the core's trimmed
length equal to the fixed band table; the table takes the claimed values at
the boundary lengths 1, 2, 5, 6, 9, 10, 13 and 14, is monotonically
non-decreasing, and is capped at 4 (with value exactly 4 from length 14
on). -/
theorem spec_C2 :
    (∀ core : List Char,
      calculateOrpCore core = specOrpTable (jsTrim core).length) ∧
    (∀ a b : Nat, a ≤ b → specOrpTable a ≤ specOrpTable b) ∧
    (∀ L : Nat, specOrpTable L ≤ 4) ∧
    (∀ L : Nat, 14 ≤ L → specOrpTable L = 4) ∧
    (specOrpTable 0 = 0 ∧ specOrpTable 1 = 0 ∧ specOrpTable 2 = 1 ∧
      specOrpTable 5 = 1 ∧ specOrpTable 6 = 2 ∧ specOrpTable 9 = 2 ∧
      specOrpTable 10 = 3 ∧ specOrpTable 13 = 3 ∧ specOrpTable 14 = 4) := by
  refine ⟨?_, ?_, ?_, ?_, by decide⟩
  · intro core
    unfold calculateOrpCore specOrpTable
    rcases h : (jsTrim core).isEmpty with hf | ht
    · simp only [h, Bool.false_eq_true, if_false]
    · have : (jsTrim core).length = 0 := by
        rw [List.isEmpty_iff] at h
        simp [h]
      simp [h, this]
  · intro a b hab
    unfold specOrpTable
    repeat' split
    all_goals omega
  · intro L
    unfold specOrpTable
    repeat' split
    all_goals omega
  · intro L hL
    unfold specOrpTable
    repeat' split
    all_goals omega

/-- Witness for spec_C2: monotonicity applied at 3 ≤ 7, the cap applied at
length 20, and the bridge at the concrete core `"hello"`. -/
theorem spec_C2_witness :
    specOrpTable 3 ≤ specOrpTable 7 ∧ specOrpTable 20 = 4 ∧
    calculateOrpCore "hello".toList = specOrpTable (jsTrim "hello".toList).length :=
  ⟨spec_C2.2.1 3 7 (by decide), spec_C2.2.2.2.1 20 (by decide),
   spec_C2.1 "hello".toList⟩

/-- spec_C7: the pipeline is total on empty and whitespace-only inputs:
`tokensFromText` of the empty string is the empty list (never a null), and
`buildWordUnits` of `""` and of `"   \n\t  "` are both empty sequences. -/
theorem spec_C7 :
    tokensFromText [] = [] ∧
    buildWordUnits "".toList = [] ∧
    buildWordUnits "   \n\t  ".toList = [] := by
  decide

/-- The assembler clamps the highlight offset into the bounds of the
display string. -/
theorem assembleToken_bounds (raw : List Char) :
    ((assembleToken raw).word = [] → (assembleToken raw).orpIndex = 0) ∧
    ((assembleToken raw).word ≠ [] →
      0 ≤ (assembleToken raw).orpIndex ∧
      (assembleToken raw).orpIndex ≤ ((assembleToken raw).word.length : Int) - 1) := by
  unfold assembleToken
  by_cases hD : (splitLeadingCoreTrailing raw).1 ++
      ((splitLeadingCoreTrailing raw).2.1 ++ (splitLeadingCoreTrailing raw).2.2) = []
  · constructor
    · intro _
      simp [hD]
    · intro h
      simp [hD] at h
  · have hne : ((splitLeadingCoreTrailing raw).1 ++
        ((splitLeadingCoreTrailing raw).2.1 ++
          (splitLeadingCoreTrailing raw).2.2)).isEmpty = false := by
      simpa [List.isEmpty_iff] using hD
    have hlen : 0 < ((splitLeadingCoreTrailing raw).1 ++
        ((splitLeadingCoreTrailing raw).2.1 ++
          (splitLeadingCoreTrailing raw).2.2)).length :=
      List.length_pos_of_ne_nil hD
    constructor
    · intro h
      simp at h
      exact absurd (by simp [h.1, h.2.1, h.2.2]) hD
    · intro _
      dsimp only
      rw [List.append_assoc, hne]
      simp only [Bool.false_eq_true, if_false]
      have hB : (0 : Int) ≤ (((splitLeadingCoreTrailing raw).1 ++
          ((splitLeadingCoreTrailing raw).2.1 ++
            (splitLeadingCoreTrailing raw).2.2)).length : Int) - 1 := by
        omega
      exact ⟨le_max_left 0 _, max_le hB (min_le_right _ _)⟩

/-- spec_C1: every `WordData` produced by the pipeline satisfies the bounds
invariant: a non-empty word has `0 ≤ orpIndex ≤ word.length - 1`, and an
empty word has `orpIndex = 0`; no produced `orpIndex` is out of bounds. -/
theorem spec_C1 (text : List Char) (u : WordData)
    (hu : u ∈ buildWordUnits text) :
    (u.word = [] → u.orpIndex = 0) ∧
    (u.word ≠ [] →
      0 ≤ u.orpIndex ∧ u.orpIndex ≤ (u.word.length : Int) - 1) := by
  unfold buildWordUnits processTokens at hu
  rw [List.mem_map] at hu
  obtain ⟨raw, _, hraw⟩ := hu
  subst hraw
  exact assembleToken_bounds raw

/-- Witness for spec_C1 at the input `"hi"`, whose single word unit is
`⟨"hi", 1⟩`. -/
theorem spec_C1_witness :
    0 ≤ (WordData.mk ['h', 'i'] 1).orpIndex ∧
    (WordData.mk ['h', 'i'] 1).orpIndex ≤
      ((WordData.mk ['h', 'i'] 1).word.length : Int) - 1 :=
  (spec_C1 "hi".toList (WordData.mk ['h', 'i'] 1) (by decide)).2 (by decide)

/-- Trimming never lengthens a string. -/
theorem jsTrim_length_le (s : List Char) : (jsTrim s).length ≤ s.length := by
  unfold jsTrim
  have h1 := (List.dropWhile_sublist
    (l := (s.dropWhile isJsWhitespace).reverse) isJsWhitespace).length_le
  have h2 := (List.dropWhile_sublist (l := s) isJsWhitespace).length_le
  simp only [List.length_reverse] at h1 ⊢
  omega

/-- On every non-empty core the ORP offset is strictly below the core
length. -/
theorem calculateOrpCore_lt_length (core : List Char) (h : core ≠ []) :
    calculateOrpCore core < core.length := by
  have hlen : 0 < core.length := List.length_pos_of_ne_nil h
  have htrim := jsTrim_length_le core
  unfold calculateOrpCore
  dsimp only
  by_cases he : (jsTrim core).isEmpty = true
  · rw [if_pos he]; omega
  · rw [if_neg he]
    have h1 : 0 < (jsTrim core).length := by
      refine List.length_pos_of_ne_nil fun hh => he ?_
      simp [hh]
    repeat' split
    all_goals omega

/-- The decomposer never returns an empty core for a non-empty token. -/
theorem split_core_ne_nil (token : List Char) (h : token ≠ []) :
    (splitLeadingCoreTrailing token).2.1 ≠ [] := by
  unfold splitLeadingCoreTrailing
  split
  · next hc =>
    obtain ⟨c, rest, hshape, _⟩ := coreOk_head _ hc
    simp [hshape]
  · simpa using h

/-- Every token produced by the tokenizer is non-empty. -/
theorem tokensAux_ne_nil : ∀ (s cur t : List Char),
    t ∈ tokensAux cur s → t ≠ [] := by
  intro s
  induction s with
  | nil =>
    intro cur t ht
    unfold tokensAux at ht
    split at ht
    · simp at ht
    · next hcur =>
      simp at ht
      subst ht
      simp only [List.isEmpty_iff] at hcur
      simpa using hcur
  | cons c rest ih =>
    intro cur t ht
    unfold tokensAux at ht
    split at ht
    · split at ht
      · exact ih [] t ht
      · next hcur =>
        simp only [List.isEmpty_iff] at hcur
        rcases List.mem_cons.mp ht with h1 | h2
        · subst h1; simpa using hcur
        · exact ih [] t h2
    · exact ih (c :: cur) t ht

/-- The variant of the assembler stated by the claim: the clamping step and
the empty-display branch removed, the highlight offset being the raw
`leading.length + calculateOrpCore core`. -/
def assembleTokenNoClamp (raw : List Char) : WordData :=
  let parts := splitLeadingCoreTrailing raw
  let leading := parts.1
  let core := parts.2.1
  let trailing := parts.2.2
  let orpCore := calculateOrpCore core
  let display := leading ++ core ++ trailing
  { word := display, orpIndex := (leading.length : Int) + orpCore }

/-- The claim's variant of `processTokens` without clamping. -/
def processTokensNoClamp (tokens : List (List Char)) : List WordData :=
  tokens.map assembleTokenNoClamp

/-- On non-empty tokens the clamp is the identity: assembling with and
without the clamp agree. -/
theorem assembleToken_eq_noclamp (raw : List Char) (h : raw ≠ []) :
    assembleToken raw = assembleTokenNoClamp raw := by
  have hcore := split_core_ne_nil raw h
  have hlt := calculateOrpCore_lt_length _ hcore
  have hclen : 0 < (splitLeadingCoreTrailing raw).2.1.length :=
    List.length_pos_of_ne_nil hcore
  unfold assembleToken assembleTokenNoClamp
  dsimp only
  have hD : ((splitLeadingCoreTrailing raw).1 ++
      (splitLeadingCoreTrailing raw).2.1 ++
      (splitLeadingCoreTrailing raw).2.2) ≠ [] := by
    simp [hcore]
  have hemp : ((splitLeadingCoreTrailing raw).1 ++
      (splitLeadingCoreTrailing raw).2.1 ++
      (splitLeadingCoreTrailing raw).2.2).isEmpty = false := by
    simpa [List.isEmpty_iff] using hD
  rw [hemp]
  simp only [Bool.false_eq_true, if_false, WordData.mk.injEq, true_and]
  simp only [List.length_append]
  push_cast
  omega

/-- spec_C9: the clamp is the identity on pipeline outputs: for every
non-empty core `calculateOrpCore core < core.length`; for every non-empty
token the raw offset `leading.length + calculateOrpCore core` already lies
in `[0, display.length - 1]`; and `processTokens` agrees with its
clamp-free variant on every token list produced by the tokenizer. -/
theorem spec_C9 :
    (∀ core : List Char, core ≠ [] → calculateOrpCore core < core.length) ∧
    (∀ raw : List Char, raw ≠ [] →
      0 ≤ (assembleTokenNoClamp raw).orpIndex ∧
      (assembleTokenNoClamp raw).orpIndex ≤
        ((assembleTokenNoClamp raw).word.length : Int) - 1) ∧
    (∀ text : List Char,
      processTokens (tokensFromText text) =
        processTokensNoClamp (tokensFromText text)) := by
  refine ⟨calculateOrpCore_lt_length, ?_, ?_⟩
  · intro raw h
    have hcore := split_core_ne_nil raw h
    have hlt := calculateOrpCore_lt_length _ hcore
    unfold assembleTokenNoClamp
    dsimp only
    constructor
    · positivity
    · simp only [List.length_append]
      push_cast
      omega
  · intro text
    unfold processTokens processTokensNoClamp
    refine List.map_congr_left fun raw hraw => ?_
    exact assembleToken_eq_noclamp raw (tokensAux_ne_nil text [] raw hraw)

/-- Witness for spec_C9 at the core `"a"` and the token `"hi"`. -/
theorem spec_C9_witness :
    calculateOrpCore ['a'] < (['a'] : List Char).length ∧
    0 ≤ (assembleTokenNoClamp ['h', 'i']).orpIndex :=
  ⟨spec_C9.1 ['a'] (by decide), (spec_C9.2.1 ['h', 'i'] (by decide)).1⟩

/-- The spec's description of tokenization, stated from its words: skip
whitespace, take the next maximal non-whitespace run, repeat — the list of
whitespace-delimited maximal non-whitespace substrings in order
(comparison definition for the tokenizer). -/
def maximalRuns (s : List Char) : List (List Char) :=
  match h : s.dropWhile isJsWhitespace with
  | [] => []
  | c :: rest =>
    (c :: rest.takeWhile fun x => !isJsWhitespace x) ::
      maximalRuns (rest.dropWhile fun x => !isJsWhitespace x)
termination_by s.length
decreasing_by
  have h1 : (s.dropWhile isJsWhitespace).length ≤ s.length :=
    (List.dropWhile_sublist (l := s) isJsWhitespace).length_le
  have h2 : (rest.dropWhile fun x => !isJsWhitespace x).length ≤ rest.length :=
    (List.dropWhile_sublist (l := rest) _).length_le
  rw [h] at h1
  simp only [List.length_cons] at h1
  omega

/-- `maximalRuns` on a string whose whitespace-stripped form is empty. -/
theorem maximalRuns_eq_nil (s : List Char)
    (h : s.dropWhile isJsWhitespace = []) : maximalRuns s = [] := by
  rw [maximalRuns.eq_def]
  split
  · rfl
  · next c rest heq => rw [h] at heq; cases heq

/-- `maximalRuns` unfolded on a string with a leading run. -/
theorem maximalRuns_eq_cons (s : List Char) (c : Char) (rest : List Char)
    (h : s.dropWhile isJsWhitespace = c :: rest) :
    maximalRuns s = (c :: rest.takeWhile fun x => !isJsWhitespace x) ::
      maximalRuns (rest.dropWhile fun x => !isJsWhitespace x) := by
  rw [maximalRuns.eq_def]
  split
  · next heq => rw [h] at heq; cases heq
  · next c2 rest2 heq =>
    rw [h] at heq
    injection heq with e1 e2
    subst e1; subst e2
    rfl

/-- Leading whitespace does not change the maximal runs. -/
theorem maximalRuns_ws_cons (c : Char) (rest : List Char)
    (hc : isJsWhitespace c = true) :
    maximalRuns (c :: rest) = maximalRuns rest := by
  have hdw : (c :: rest).dropWhile isJsWhitespace =
      rest.dropWhile isJsWhitespace := by
    rw [List.dropWhile_cons, if_pos hc]
  cases hr : rest.dropWhile isJsWhitespace with
  | nil => rw [maximalRuns_eq_nil _ (hdw.trans hr), maximalRuns_eq_nil _ hr]
  | cons d r2 =>
    rw [maximalRuns_eq_cons _ d r2 (hdw.trans hr),
      maximalRuns_eq_cons _ d r2 hr]

/-- `maximalRuns` on a string starting a non-whitespace run. -/
theorem maximalRuns_nws_cons (c : Char) (rest : List Char)
    (hc : isJsWhitespace c = false) :
    maximalRuns (c :: rest) =
      (c :: rest.takeWhile fun x => !isJsWhitespace x) ::
        maximalRuns (rest.dropWhile fun x => !isJsWhitespace x) := by
  apply maximalRuns_eq_cons
  rw [List.dropWhile_cons, if_neg (by simp [hc])]

/-- The tokenizer scanner computes the maximal non-whitespace runs; the
accumulator `cur` holds the (reversed) pending part of the current run. -/
theorem tokensAux_eq_maximalRuns : ∀ s cur : List Char,
    tokensAux cur s = if cur.isEmpty then maximalRuns s
      else (cur.reverse ++ s.takeWhile fun x => !isJsWhitespace x) ::
        maximalRuns (s.dropWhile fun x => !isJsWhitespace x) := by
  intro s
  induction s with
  | nil =>
    intro cur
    unfold tokensAux
    cases hcur : cur.isEmpty
    · simp [maximalRuns_eq_nil [] (by simp)]
    · simp [maximalRuns_eq_nil [] (by simp)]
  | cons c rest ih =>
    intro cur
    unfold tokensAux
    by_cases hc : isJsWhitespace c = true
    · rw [if_pos hc]
      cases hcur : cur.isEmpty
      · rw [if_neg (by simp [hcur]), if_neg (by simp [hcur])]
        rw [ih [], if_pos (by simp)]
        have ht : (c :: rest).takeWhile (fun x => !isJsWhitespace x) = [] := by
          rw [List.takeWhile_cons, if_neg (by simp [hc])]
        have hd : (c :: rest).dropWhile (fun x => !isJsWhitespace x) =
            c :: rest := by
          rw [List.dropWhile_cons, if_neg (by simp [hc])]
        rw [ht, hd, maximalRuns_ws_cons c rest hc]
        simp
      · rw [if_pos (by simp [hcur]), if_pos (by simp [hcur])]
        rw [ih [], if_pos (by simp), maximalRuns_ws_cons c rest hc]
    · rw [if_neg hc]
      have hcf : isJsWhitespace c = false := by
        cases hcc : isJsWhitespace c
        · rfl
        · exact absurd hcc hc
      have ht : (c :: rest).takeWhile (fun x => !isJsWhitespace x) =
          c :: rest.takeWhile (fun x => !isJsWhitespace x) := by
        rw [List.takeWhile_cons, if_pos (by simp [hcf])]
      have hd : (c :: rest).dropWhile (fun x => !isJsWhitespace x) =
          rest.dropWhile (fun x => !isJsWhitespace x) := by
        rw [List.dropWhile_cons, if_pos (by simp [hcf])]
      rw [ih (c :: cur)]
      rw [if_neg (by simp)]
      cases hcur : cur.isEmpty
      · rw [if_neg (by simp [hcur]), ht, hd]
        simp
      · rw [if_pos (by simp [hcur]), maximalRuns_nws_cons c rest hcf]
        have : cur = [] := List.isEmpty_iff.mp hcur
        simp [this]

/-- spec_C6: the pipeline is 1:1 and order-preserving: `buildWordUnits` is
exactly the map of the per-token assembler over the tokens of
`normalizeForWords text`; its length equals the number of
whitespace-delimited maximal non-whitespace substrings of
`normalizeForWords text` (the tokenizer output coincides with
`maximalRuns`); and the i-th word unit is the decomposition+assembly of the
i-th token. -/
theorem spec_C6 (text : List Char) :
    buildWordUnits text =
      (tokensFromText (normalizeForWords text)).map assembleToken ∧
    (buildWordUnits text).length = (maximalRuns (normalizeForWords text)).length ∧
    tokensFromText (normalizeForWords text) =
      maximalRuns (normalizeForWords text) ∧
    (∀ i (h1 : i < (buildWordUnits text).length)
        (h2 : i < (tokensFromText (normalizeForWords text)).length),
      (buildWordUnits text).get ⟨i, h1⟩ =
        assembleToken ((tokensFromText (normalizeForWords text)).get ⟨i, h2⟩)) := by
  have htok : tokensFromText (normalizeForWords text) =
      maximalRuns (normalizeForWords text) := by
    have := tokensAux_eq_maximalRuns (normalizeForWords text) []
    simpa [tokensFromText] using this
  refine ⟨rfl, ?_, htok, ?_⟩
  · rw [← htok]
    simp [buildWordUnits, processTokens]
  · intro i h1 h2
    simp only [buildWordUnits, processTokens, List.get_eq_getElem,
      List.getElem_map]

/-- Witness for spec_C6 at the input `"a b"` and index 0. -/
theorem spec_C6_witness :
    (buildWordUnits "a b".toList).get ⟨0, by decide⟩ =
      assembleToken
        ((tokensFromText (normalizeForWords "a b".toList)).get ⟨0, by decide⟩) :=
  (spec_C6 "a b".toList).2.2.2 0 (by decide) (by decide)

/-- `replaceCR` leaves no carriage return behind. -/
theorem replaceCR_no_cr (s : List Char) : ∀ c ∈ replaceCR s, c ≠ '\r' := by
  intro c hc
  unfold replaceCR at hc
  rw [List.mem_map] at hc
  obtain ⟨a, _, ha⟩ := hc
  by_cases h : a = '\r'
  · rw [if_pos h] at ha
    rw [← ha]
    decide
  · rw [if_neg h] at ha
    rw [← ha]
    exact h

/-- Characters of a collapsed string: the replacement character, or a
character of the input outside the collapsed class. -/
theorem collapseRunsAux_mem (p : Char → Bool) (r : Char) :
    ∀ (s : List Char) (b : Bool), ∀ c ∈ collapseRunsAux p r b s,
    c = r ∨ (p c = false ∧ c ∈ s) := by
  intro s
  induction s with
  | nil =>
    intro b c hc
    simp [collapseRunsAux] at hc
  | cons d rest ih =>
    intro b c hc
    unfold collapseRunsAux at hc
    by_cases hd : p d = true
    · rw [if_pos hd] at hc
      cases b
      · rw [if_neg (by simp)] at hc
        rcases List.mem_cons.mp hc with h1 | h2
        · exact Or.inl h1
        · rcases ih true c h2 with h | ⟨hf, hm⟩
          · exact Or.inl h
          · exact Or.inr ⟨hf, List.mem_cons_of_mem d hm⟩
      · rw [if_pos rfl] at hc
        rcases ih true c hc with h | ⟨hf, hm⟩
        · exact Or.inl h
        · exact Or.inr ⟨hf, List.mem_cons_of_mem d hm⟩
    · rw [if_neg hd] at hc
      rcases List.mem_cons.mp hc with h1 | h2
      · refine Or.inr ⟨?_, by rw [h1]; exact List.mem_cons_self d rest⟩
        rw [h1]
        cases hpd : p d
        · rfl
        · exact absurd hpd hd
      · rcases ih false c h2 with h | ⟨hf, hm⟩
        · exact Or.inl h
        · exact Or.inr ⟨hf, List.mem_cons_of_mem d hm⟩

/-- In the collapsing state the next emitted character is outside the
class. -/
theorem collapseRunsAux_head (p : Char → Bool) (r : Char) :
    ∀ (s : List Char), ∀ c, (collapseRunsAux p r true s).head? = some c →
    p c = false := by
  intro s
  induction s with
  | nil =>
    intro c hc
    simp [collapseRunsAux] at hc
  | cons d rest ih =>
    intro c hc
    unfold collapseRunsAux at hc
    by_cases hd : p d = true
    · rw [if_pos hd, if_pos rfl] at hc
      exact ih c hc
    · rw [if_neg hd] at hc
      simp at hc
      rw [← hc]
      cases hpd : p d
      · rfl
      · exact absurd hpd hd

/-- No two adjacent characters of a collapsed string are both in the
collapsed class. -/
theorem collapseRunsAux_chain (p : Char → Bool) (r : Char) :
    ∀ (s : List Char) (b : Bool),
    List.Chain' (fun a c => ¬(p a = true ∧ p c = true))
      (collapseRunsAux p r b s) := by
  intro s
  induction s with
  | nil =>
    intro b
    simp [collapseRunsAux, List.chain'_nil]
  | cons d rest ih =>
    intro b
    unfold collapseRunsAux
    by_cases hd : p d = true
    · rw [if_pos hd]
      cases b
      · rw [if_neg (by simp)]
        rw [List.chain'_cons']
        refine ⟨?_, ih true⟩
        intro y hy hcon
        rw [collapseRunsAux_head p r rest y hy] at hcon
        exact absurd hcon.2 (by simp)
      · rw [if_pos rfl]
        exact ih true
    · rw [if_neg hd]
      rw [List.chain'_cons']
      refine ⟨?_, ih false⟩
      intro y _ hcon
      exact hd hcon.1

/-- Every character emitted for a newline run is a newline. -/
theorem nlFor_mem (run : Nat) : ∀ c ∈ nlFor run, c = '\n' := by
  intro c hc
  unfold nlFor at hc
  split at hc
  · simp at hc
    exact hc
  · exact (List.mem_replicate.mp hc).2

/-- A replicated newline list has no adjacent horizontal whitespace. -/
theorem chain_replicate_nl (n : Nat) :
    List.Chain' (fun a c => ¬(isHorizWs a = true ∧ isHorizWs c = true))
      (List.replicate n '\n') := by
  induction n with
  | zero => simp
  | succ m ih =>
    rw [List.replicate_succ, List.chain'_cons']
    refine ⟨?_, ih⟩
    intro y hy
    rw [List.head?_replicate] at hy
    by_cases hm : m = 0
    · rw [if_pos hm] at hy
      cases hy
    · rw [if_neg hm] at hy
      have hy2 : '\n' = y := by injection hy
      subst hy2
      decide

/-- The emitted newline runs have no adjacent horizontal whitespace. -/
theorem nlFor_chain (run : Nat) :
    List.Chain' (fun a c => ¬(isHorizWs a = true ∧ isHorizWs c = true))
      (nlFor run) := by
  unfold nlFor
  split
  · rw [List.chain'_cons']
    refine ⟨?_, List.chain'_singleton _⟩
    intro y hy
    simp at hy
    subst hy
    decide
  · exact chain_replicate_nl run

/-- A list's optional head, when present, is a member. -/
theorem head?_some_mem {α : Type} {l : List α} {x : α}
    (h : l.head? = some x) : x ∈ l := by
  cases l with
  | nil => cases h
  | cons a rest =>
    simp at h
    subst h
    exact List.mem_cons_self a rest

/-- A nonempty emitted newline run starts with a newline. -/
theorem nlFor_head (run : Nat) (h : run ≠ 0) :
    (nlFor run).head? = some '\n' := by
  unfold nlFor
  split
  · rfl
  · rw [List.head?_replicate, if_neg h]

/-- Characters of the newline-collapsed string: a newline, or a character
of the input. -/
theorem collapseNlAux_mem : ∀ (s : List Char) (run : Nat),
    ∀ c ∈ collapseNlAux run s, c = '\n' ∨ c ∈ s := by
  intro s
  induction s with
  | nil =>
    intro run c hc
    exact Or.inl (nlFor_mem run c hc)
  | cons d rest ih =>
    intro run c hc
    unfold collapseNlAux at hc
    by_cases hd : d = '\n'
    · rw [if_pos hd] at hc
      rcases ih (run + 1) c hc with h | h
      · exact Or.inl h
      · exact Or.inr (List.mem_cons_of_mem d h)
    · rw [if_neg hd] at hc
      rcases List.mem_append.mp hc with h | h
      · exact Or.inl (nlFor_mem run c h)
      · rcases List.mem_cons.mp h with h1 | h2
        · exact Or.inr (by rw [h1]; exact List.mem_cons_self d rest)
        · rcases ih 0 c h2 with h3 | h3
          · exact Or.inl h3
          · exact Or.inr (List.mem_cons_of_mem d h3)

/-- Collapsing newline runs preserves the absence of adjacent horizontal
whitespace; the head of the output is a newline or, when no newline run is
pending, the head of the input. -/
theorem collapseNlAux_chain : ∀ (s : List Char) (run : Nat),
    List.Chain' (fun a c => ¬(isHorizWs a = true ∧ isHorizWs c = true)) s →
    List.Chain' (fun a c => ¬(isHorizWs a = true ∧ isHorizWs c = true))
      (collapseNlAux run s) ∧
    (∀ c, (collapseNlAux run s).head? = some c →
      c = '\n' ∨ (run = 0 ∧ s.head? = some c)) := by
  intro s
  induction s with
  | nil =>
    intro run _
    refine ⟨nlFor_chain run, ?_⟩
    intro c hc
    exact Or.inl (nlFor_mem run c (head?_some_mem hc))
  | cons d rest ih =>
    intro run hch
    have hchr : List.Chain'
        (fun a c => ¬(isHorizWs a = true ∧ isHorizWs c = true)) rest :=
      (List.chain'_cons'.mp hch).2
    by_cases hd : d = '\n'
    · subst hd
      unfold collapseNlAux
      rw [if_pos rfl]
      have hih := ih (run + 1) hchr
      refine ⟨hih.1, ?_⟩
      intro c hc
      rcases hih.2 c hc with h | ⟨h0, _⟩
      · exact Or.inl h
      · cases h0
    · unfold collapseNlAux
      rw [if_neg hd]
      have hih := ih 0 hchr
      constructor
      · rw [List.chain'_append]
        refine ⟨nlFor_chain run, ?_, ?_⟩
        · rw [List.chain'_cons']
          refine ⟨?_, hih.1⟩
          intro y hy
          rcases hih.2 y hy with h | ⟨_, hhy⟩
          · subst h
            intro hcon
            exact absurd hcon.2 (by decide)
          · exact (List.chain'_cons'.mp hch).1 y hhy
        · intro x hx y _
          have hx2 : x = '\n' := by
            rw [List.getLast?_eq_head?_reverse] at hx
            exact nlFor_mem run x (List.mem_reverse.mp (head?_some_mem hx))
          subst hx2
          intro hcon
          exact absurd hcon.1 (by decide)
      · intro c hc
        cases hrun : run with
        | zero =>
          have hnl : nlFor 0 = [] := by decide
          rw [hrun, hnl, List.nil_append] at hc
          simp at hc
          exact Or.inr ⟨rfl, by simp [hc]⟩
        | succ n =>
          have hne : (nlFor (n + 1)).head? = some '\n' :=
            nlFor_head (n + 1) (by omega)
          left
          rw [hrun] at hc
          cases hnl : nlFor (n + 1) with
          | nil => rw [hnl] at hne; cases hne
          | cons e es =>
            rw [hnl] at hc hne
            simp at hc hne
            rw [← hc, hne]

/-- Detector for three consecutive newlines; `k` counts the newlines seen
immediately before the current position. -/
def hasTripleNlAux (k : Nat) : List Char → Bool
  | [] => false
  | c :: rest =>
    if c = '\n' then
      if 2 ≤ k then true else hasTripleNlAux (k + 1) rest
    else hasTripleNlAux 0 rest

/-- The detector is monotone in the carried newline count. -/
theorem hasTripleNlAux_mono : ∀ (s : List Char) (k k2 : Nat), k ≤ k2 →
    hasTripleNlAux k s = true → hasTripleNlAux k2 s = true := by
  intro s
  induction s with
  | nil => intro k k2 _ h; simp [hasTripleNlAux] at h
  | cons c rest ih =>
    intro k k2 hk h
    unfold hasTripleNlAux at h ⊢
    by_cases hc : c = '\n'
    · rw [if_pos hc] at h ⊢
      by_cases h2 : 2 ≤ k
      · rw [if_pos (by omega)]
      · rw [if_neg h2] at h
        by_cases h3 : 2 ≤ k2
        · rw [if_pos h3]
        · rw [if_neg h3]
          exact ih (k + 1) (k2 + 1) (by omega) h
    · rw [if_neg hc] at h ⊢
      exact h

/-- A triple detected in a prefix is detected in the whole string. -/
theorem hasTripleNlAux_append : ∀ (m y : List Char) (k : Nat),
    hasTripleNlAux k m = true → hasTripleNlAux k (m ++ y) = true := by
  intro m
  induction m with
  | nil => intro y k h; simp [hasTripleNlAux] at h
  | cons c rest ih =>
    intro y k h
    rw [List.cons_append]
    unfold hasTripleNlAux at h ⊢
    by_cases hc : c = '\n'
    · rw [if_pos hc] at h ⊢
      by_cases h2 : 2 ≤ k
      · rw [if_pos h2]
      · rw [if_neg h2] at h ⊢
        exact ih y (k + 1) h
    · rw [if_neg hc] at h ⊢
      exact ih y 0 h

/-- A triple detected in a suffix is detected in the whole string. -/
theorem hasTripleNlAux_append_left : ∀ (x m : List Char) (k : Nat),
    hasTripleNlAux 0 m = true → hasTripleNlAux k (x ++ m) = true := by
  intro x
  induction x with
  | nil => intro m k h; exact hasTripleNlAux_mono m 0 k (by omega) h
  | cons c x2 ih =>
    intro m k h
    rw [List.cons_append]
    unfold hasTripleNlAux
    by_cases hc : c = '\n'
    · rw [if_pos hc]
      by_cases h2 : 2 ≤ k
      · rw [if_pos h2]
      · rw [if_neg h2]
        exact ih m (k + 1) h
    · rw [if_neg hc]
      exact ih m 0 h

/-- The detector characterised: it fires exactly on strings containing
three consecutive newlines (relative to the carried count). -/
theorem hasTripleNlAux_true : ∀ (s : List Char) (k : Nat),
    hasTripleNlAux k s = true →
    ∃ x y, List.replicate k '\n' ++ s = x ++ '\n' :: '\n' :: '\n' :: y := by
  intro s
  induction s with
  | nil => intro k h; simp [hasTripleNlAux] at h
  | cons c rest ih =>
    intro k h
    unfold hasTripleNlAux at h
    by_cases hc : c = '\n'
    · subst hc
      rw [if_pos rfl] at h
      by_cases h2 : 2 ≤ k
      · refine ⟨List.replicate (k - 2) '\n', rest, ?_⟩
        have hk : k = (k - 2) + 2 := by omega
        rw [hk, List.replicate_add]
        simp [List.replicate]
      · rw [if_neg h2] at h
        obtain ⟨x, y, hxy⟩ := ih (k + 1) h
        refine ⟨x, y, ?_⟩
        rw [← hxy, List.replicate_succ', List.append_assoc]
        rfl
    · rw [if_neg hc] at h
      obtain ⟨x, y, hxy⟩ := ih 0 h
      refine ⟨List.replicate k '\n' ++ c :: x, y, ?_⟩
      simp at hxy
      rw [List.append_assoc]
      simp [hxy]

/-- The converse: a string containing three consecutive newlines fires the
detector. -/
theorem hasTripleNlAux_of_decomp (x y : List Char) :
    hasTripleNlAux 0 (x ++ '\n' :: '\n' :: '\n' :: y) = true := by
  apply hasTripleNlAux_append_left
  simp [hasTripleNlAux]

/-- The collapsed string never contains three consecutive newlines. -/
theorem collapseNlAux_no_triple : ∀ (s : List Char) (run : Nat),
    hasTripleNlAux 0 (collapseNlAux run s) = false := by
  have nlFor_no_triple : ∀ run : Nat,
      hasTripleNlAux 0 (nlFor run) = false := by
    intro run
    unfold nlFor
    split
    · decide
    · next h =>
      have h2 : run ≤ 2 := by omega
      interval_cases run <;> decide
  have triple_skip : ∀ (run : Nat) (c : Char) (l : List Char), c ≠ '\n' →
      hasTripleNlAux 0 (nlFor run ++ c :: l) = hasTripleNlAux 0 l := by
    intro run c l hc
    unfold nlFor
    split
    · simp [hasTripleNlAux, hc]
    · next h =>
      have h2 : run ≤ 2 := by omega
      interval_cases run <;> simp [hasTripleNlAux, hc]
  intro s
  induction s with
  | nil => intro run; exact nlFor_no_triple run
  | cons c rest ih =>
    intro run
    unfold collapseNlAux
    by_cases hc : c = '\n'
    · rw [if_pos hc]
      exact ih (run + 1)
    · rw [if_neg hc, triple_skip run c _ hc]
      exact ih 0

/-- A reversed list splits at the whitespace border. -/
theorem reverse_split_ws (m : List Char) :
    m.reverse = (m.dropWhile isJsWhitespace).reverse ++
      (m.takeWhile isJsWhitespace).reverse := by
  rw [← List.reverse_append, List.takeWhile_append_dropWhile]

/-- The whitespace-stripped remainder is the trimmed string followed by the
trailing whitespace. -/
theorem dropWhile_eq_jsTrim_append (l : List Char) :
    l.dropWhile isJsWhitespace = jsTrim l ++
      ((l.dropWhile isJsWhitespace).reverse.takeWhile isJsWhitespace).reverse := by
  have h3 := reverse_split_ws ((l.dropWhile isJsWhitespace).reverse)
  rw [List.reverse_reverse] at h3
  exact h3

/-- Every string is its leading whitespace, its trimmed part, and its
trailing whitespace. -/
theorem jsTrim_decomp (l : List Char) :
    l = l.takeWhile isJsWhitespace ++ jsTrim l ++
      ((l.dropWhile isJsWhitespace).reverse.takeWhile isJsWhitespace).reverse := by
  rw [List.append_assoc, ← dropWhile_eq_jsTrim_append,
    List.takeWhile_append_dropWhile]

/-- The head of a whitespace-stripped string is not whitespace. -/
theorem head?_dropWhile (p : Char → Bool) : ∀ (l : List Char) (c : Char),
    (l.dropWhile p).head? = some c → p c = false := by
  intro l
  induction l with
  | nil => intro c h; cases h
  | cons d rest ih =>
    intro c h
    rw [List.dropWhile_cons] at h
    split at h
    · exact ih c h
    · next hd =>
      simp at h
      rw [← h]
      cases hpd : p d
      · rfl
      · exact absurd hpd hd

/-- The first character of a trimmed string is not whitespace. -/
theorem jsTrim_head (l : List Char) : ∀ c, (jsTrim l).head? = some c →
    isJsWhitespace c = false := by
  intro c hc
  apply head?_dropWhile isJsWhitespace l c
  rw [dropWhile_eq_jsTrim_append l]
  cases hj : jsTrim l with
  | nil => rw [hj] at hc; cases hc
  | cons a r =>
    rw [hj] at hc
    simpa using hc

/-- The last character of a trimmed string is not whitespace. -/
theorem jsTrim_getLast (l : List Char) : ∀ c, (jsTrim l).getLast? = some c →
    isJsWhitespace c = false := by
  intro c hc
  unfold jsTrim at hc
  rw [List.getLast?_eq_head?_reverse, List.reverse_reverse] at hc
  exact head?_dropWhile isJsWhitespace _ c hc

/-- Trimming only removes characters. -/
theorem mem_jsTrim (l : List Char) : ∀ c ∈ jsTrim l, c ∈ l := by
  intro c hc
  rw [jsTrim_decomp l]
  simp only [List.mem_append]
  exact Or.inl (Or.inr hc)

/-- Trimming preserves any adjacency property. -/
theorem jsTrim_chain {R : Char → Char → Prop} (l : List Char)
    (h : List.Chain' R l) : List.Chain' R (jsTrim l) := by
  rw [jsTrim_decomp l] at h
  exact (List.chain'_append.mp (List.chain'_append.mp h).1).2.1

/-- Trimming cannot create three consecutive newlines. -/
theorem jsTrim_no_triple (l : List Char)
    (h : hasTripleNlAux 0 l = false) :
    hasTripleNlAux 0 (jsTrim l) = false := by
  cases hv : hasTripleNlAux 0 (jsTrim l)
  · rfl
  · exfalso
    have h2 := hasTripleNlAux_append (jsTrim l)
      ((l.dropWhile isJsWhitespace).reverse.takeWhile isJsWhitespace).reverse 0 hv
    have h3 := hasTripleNlAux_append_left (l.takeWhile isJsWhitespace) _ 0 h2
    rw [← List.append_assoc, ← jsTrim_decomp l] at h3
    rw [h] at h3
    cases h3

/-- spec_C8: `normalizePreserveParagraphs` unifies CRLF/CR line endings
(no carriage return survives), collapses horizontal whitespace runs (no tab
survives and no two adjacent space/tab characters remain), collapses runs of
three or more newlines (no three consecutive newlines remain), and trims
(the first and last characters are not whitespace); concretely,
`"A\r\n\r\rB"` normalizes to `"A\n\nB"`, five blank-line newlines collapse
to exactly one double newline, and `normalizeForWords` on the same input is
the single-line, single-spaced `"A B"`. -/
theorem spec_C8 (text : List Char) :
    (∀ c ∈ normalizePreserveParagraphs text, c ≠ '\r' ∧ c ≠ '\t') ∧
    List.Chain' (fun a c => ¬(isHorizWs a = true ∧ isHorizWs c = true))
      (normalizePreserveParagraphs text) ∧
    (¬∃ x y, normalizePreserveParagraphs text =
      x ++ '\n' :: '\n' :: '\n' :: y) ∧
    (∀ c, (normalizePreserveParagraphs text).head? = some c →
      isJsWhitespace c = false) ∧
    (∀ c, (normalizePreserveParagraphs text).getLast? = some c →
      isJsWhitespace c = false) ∧
    normalizePreserveParagraphs "A\r\n\r\rB".toList = "A\n\nB".toList ∧
    normalizePreserveParagraphs "A\n\n\n\n\nB".toList = "A\n\nB".toList ∧
    normalizeForWords "A\n\n\n\n\nB".toList = "A B".toList := by
  refine ⟨?_, ?_, ?_, ?_, ?_, by decide, by decide, by decide⟩
  · intro c hc
    unfold normalizePreserveParagraphs at hc
    have hcW := mem_jsTrim _ c hc
    unfold collapseNewlines at hcW
    rcases collapseNlAux_mem _ 0 c hcW with h | h
    · subst h
      exact ⟨by decide, by decide⟩
    · unfold collapseHoriz at h
      rcases collapseRunsAux_mem isHorizWs ' ' _ false c h with h2 | ⟨hf, hm⟩
      · subst h2
        exact ⟨by decide, by decide⟩
      · refine ⟨replaceCR_no_cr (replaceCRLF text) c hm, ?_⟩
        intro hct
        subst hct
        exact absurd hf (by decide)
  · unfold normalizePreserveParagraphs collapseNewlines collapseHoriz
    apply jsTrim_chain
    exact (collapseNlAux_chain _ 0
      (collapseRunsAux_chain isHorizWs ' ' _ false)).1
  · rintro ⟨x, y, hxy⟩
    have h1 : hasTripleNlAux 0 (normalizePreserveParagraphs text) = true := by
      rw [hxy]
      exact hasTripleNlAux_of_decomp x y
    have h2 : hasTripleNlAux 0 (normalizePreserveParagraphs text) = false := by
      unfold normalizePreserveParagraphs collapseNewlines
      exact jsTrim_no_triple _ (collapseNlAux_no_triple _ 0)
    rw [h1] at h2
    cases h2
  · intro c hc
    unfold normalizePreserveParagraphs at hc
    exact jsTrim_head _ c hc
  · intro c hc
    unfold normalizePreserveParagraphs at hc
    exact jsTrim_getLast _ c hc

/-- Witness for spec_C8 at the input `"a b"`. -/
theorem spec_C8_witness :
    ('a' ≠ '\r' ∧ 'a' ≠ '\t') ∧ isJsWhitespace 'a' = false :=
  ⟨(spec_C8 "a b".toList).1 'a' (by decide),
   (spec_C8 "a b".toList).2.2.2.1 'a' (by decide)⟩

/-- spec_C10: "alphanumeric" in the decomposer is exactly ASCII
`A-Z a-z 0-9`: the character class agrees with the standard ASCII
`Char.isAlphanum`, every character beyond ASCII is classified as
punctuation, and consequently `"café"` decomposes with core `"caf"` and
trailing `"é"` (the ORP offset 1 then comes from the ASCII-only core length
3), while `"naïve"`, where the non-ASCII letter interrupts the core
pattern, takes the whole-token fallback. -/
theorem spec_C10 :
    (∀ c : Char, isAlnumChar c = Char.isAlphanum c) ∧
    (∀ c : Char, 128 ≤ c.toNat → isAlnumChar c = false) ∧
    splitLeadingCoreTrailing "café".toList = ([], "caf".toList, ['é']) ∧
    buildWordUnits "café".toList = [⟨"café".toList, 1⟩] ∧
    splitLeadingCoreTrailing "naïve".toList = ([], "naïve".toList, []) := by
  refine ⟨?_, ?_, by decide, by decide, by decide⟩
  · intro c
    unfold isAlnumChar Char.isAlphanum Char.isAlpha Char.isDigit
      Char.isUpper Char.isLower
    simp [Char.le_def, decide_eq_true_eq]
  · intro c h
    have hZ : ¬ (c ≤ 'Z') := by
      rw [Char.le_def, UInt32.le_def, BitVec.le_def]
      intro hle
      unfold Char.toNat UInt32.toNat at h
      have e : ('Z'.val.toBitVec.toNat) = 90 := rfl
      omega
    have hz : ¬ (c ≤ 'z') := by
      rw [Char.le_def, UInt32.le_def, BitVec.le_def]
      intro hle
      unfold Char.toNat UInt32.toNat at h
      have e : ('z'.val.toBitVec.toNat) = 122 := rfl
      omega
    have h9 : ¬ (c ≤ '9') := by
      rw [Char.le_def, UInt32.le_def, BitVec.le_def]
      intro hle
      unfold Char.toNat UInt32.toNat at h
      have e : ('9'.val.toBitVec.toNat) = 57 := rfl
      omega
    unfold isAlnumChar
    simp [hZ, hz, h9]

/-- Witness for spec_C10 at the non-ASCII letter `'é'`. -/
theorem spec_C10_witness :
    isAlnumChar 'é' = false ∧ isAlnumChar 'k' = Char.isAlphanum 'k' :=
  ⟨spec_C10.2.1 'é' (by decide), spec_C10.1 'k'⟩
